import Mathlib

/-!
Verification of the k-median optimization core of sf-stations (src/main.rs).

Embedding conventions:
* `f32` values are modelled as exact rationals `ℚ`; machine rounding is not
  modelled (comparisons and algebra below never depend on rounding).
* `f32::sqrt` is an abstract parameter `sqrtF : ℚ → ℚ`; no property of it is
  assumed in a definition, theorems hypothesize exactly what they need.
* `f32::MAX` is the exact rational value of the largest finite `f32`.
* Loops (`while step > eps` in `Frontend::simulated_annealing`) are embedded
  with an explicit fuel counter; running out of fuel yields `none`, so that
  `= some _` expresses actual termination of the source loop.
* `rand::thread_rng().gen_range(lo..hi)` is modelled by an oracle
  `rand : ℕ → ℚ × ℚ` providing the sampled coordinates; its range contract is
  a hypothesis where needed.
-/

/-- Exact rational value of `f32::MAX`, that is `2^128 - 2^104` (used as the
sentinel "infinite" value in `Frontend::new` and as the initial
`closest_distance` in the partition); written as a numeral so that concrete
states evaluate by `decide`. -/
def f32MAX : ℚ := 340282346638528859811704183484516925440

/-- Map bounds, from the constants at the top of src/main.rs. -/
def MAP_LEFT : ℚ := -324600

/-- Map bound `MAP_TOP`. -/
def MAP_TOP : ℚ := -375000

/-- Map bound `MAP_RIGHT`. -/
def MAP_RIGHT : ℚ := 425300

/-- Map bound `MAP_BOT`. -/
def MAP_BOT : ℚ := 375000

/-- A resource marker; only the `x`/`y` coordinates are read by the
optimization core (the remaining JSON fields are display-only metadata). -/
structure ResourceMarker where
  x : ℚ
  y : ℚ
deriving DecidableEq, Repr

/-- The `Frontend` state, restricted to the fields read or written by the
optimization core (`layers` and `run_continuously` are display-only). -/
structure Frontend where
  markers : List ResourceMarker
  points : List (ℚ × ℚ)
  sets : List (List ℕ)
  last_error : ℚ
  best_so_far : ℚ
  best_so_far_points : List (ℚ × ℚ)
  k : ℕ
  anneal_step : ℚ
  anneal_epsilon : ℚ
  k_median_max_iter : ℕ
  k_median_epsilon : ℚ
deriving DecidableEq, Repr

/-- The constructor `Frontend::new`: initial state with the default algorithm parameters. -/
def Frontend.new (markers : List ResourceMarker) : Frontend :=
  { markers := markers
    points := []
    sets := []
    last_error := f32MAX
    best_so_far := f32MAX
    best_so_far_points := []
    k := 10
    anneal_step := 10000
    anneal_epsilon := 1
    k_median_max_iter := 10
    k_median_epsilon := 10 }

/-- Position of a marker as a pair, `pos2(marker.x, marker.y)`. -/
def mkPos (mk : ResourceMarker) : ℚ × ℚ := (mk.x, mk.y)

/-- Marker lookup `self.markers[i]` (out-of-range indices never occur in the
driver; `getD` supplies a junk default). -/
def markerAt (markers : List ResourceMarker) (i : ℕ) : ResourceMarker :=
  markers.getD i ⟨0, 0⟩

/-- Euclidean distance `(p - m).length()` between two positions, with the
square root abstracted as `sqrtF`. -/
def distTo (sqrtF : ℚ → ℚ) (p m : ℚ × ℚ) : ℚ :=
  sqrtF ((p.1 - m.1) * (p.1 - m.1) + (p.2 - m.2) * (p.2 - m.2))

/-- Sum over `indices` of the distance from marker `i` to `median`:
the expression `indices.iter().map(|i| ((markers[i].x - median.x)^2 +
(markers[i].y - median.y)^2).sqrt()).sum()` used both for `min` and for `d`
inside `Frontend::simulated_annealing`. -/
def distanceSum (sqrtF : ℚ → ℚ) (markers : List ResourceMarker)
    (indices : List ℕ) (median : ℚ × ℚ) : ℚ :=
  (indices.map (fun i =>
    sqrtF (((markerAt markers i).x - median.1) * ((markerAt markers i).x - median.1) +
           ((markerAt markers i).y - median.2) * ((markerAt markers i).y - median.2)))).sum

/-- The centroid initialization of `Frontend::simulated_annealing`: fold the
marker positions starting from `Pos2::ZERO`, then divide each coordinate by
`indices.len()`.  For an empty index list this divides by zero (in `f32`:
`0.0 / 0.0 = NaN`; in the exact model: the junk value `0`). -/
def saCentroid (markers : List ResourceMarker) (indices : List ℕ) : ℚ × ℚ :=
  let s := indices.foldl
    (fun acc i => (acc.1 + (markerAt markers i).x, acc.2 + (markerAt markers i).y))
    (0, 0)
  (s.1 / (indices.length : ℚ), s.2 / (indices.length : ℚ))

/-- The four axis-aligned scan directions of `Frontend::simulated_annealing`. -/
def directions : List (ℚ × ℚ) := [(1, 0), (-1, 0), (0, 1), (0, -1)]

/-- One pass of the direction scan (the inner `for direction in &directions`
loop): computes `temp_median = median + step * direction` but evaluates the
candidate sum `d` from the unmoved `median`, exactly as the source does;
returns the adopted `(temp_median, d)` of the first direction with `d < min`,
or `none` if the pass found no improvement. -/
def scanDirections (sqrtF : ℚ → ℚ) (markers : List ResourceMarker)
    (indices : List ℕ) (median : ℚ × ℚ) (minv step : ℚ) :
    List (ℚ × ℚ) → Option ((ℚ × ℚ) × ℚ)
  | [] => none
  | dir :: rest =>
    let temp_median := (median.1 + step * dir.1, median.2 + step * dir.2)
    let d := distanceSum sqrtF markers indices median
    if d < minv then some (temp_median, d)
    else scanDirections sqrtF markers indices median minv step rest

/-- The `while step > self.anneal_epsilon` loop of
`Frontend::simulated_annealing`, with explicit fuel.  State: current `median`,
current `min`, current `step`, and the `improved` flag (declared outside the
loop in the source and never reset).  A pass that adopts a direction keeps
`step` unchanged; otherwise `step *= 0.5` only while `improved` is false.
`none` means the fuel ran out with the loop condition still true. -/
def saLoop (sqrtF : ℚ → ℚ) (markers : List ResourceMarker) (indices : List ℕ)
    (eps : ℚ) : ℕ → (ℚ × ℚ) → ℚ → ℚ → Bool → Option (ℚ × ℚ)
  | 0, median, _minv, step, _improved =>
    if eps < step then none else some median
  | fuel + 1, median, minv, step, improved =>
    if eps < step then
      match scanDirections sqrtF markers indices median minv step directions with
      | some md => saLoop sqrtF markers indices eps fuel md.1 md.2 step true
      | none => saLoop sqrtF markers indices eps fuel median minv
          (if improved then step else step * (1 / 2)) improved
    else some median

/-- The function `Frontend::simulated_annealing`: centroid initialization, initial `min`
as the distance sum at the centroid, then the step-halving loop. -/
def Frontend.simulated_annealing (sqrtF : ℚ → ℚ) (fuel : ℕ) (s : Frontend)
    (indices : List ℕ) : Option (ℚ × ℚ) :=
  let median := saCentroid s.markers indices
  let minv := distanceSum sqrtF s.markers indices median
  saLoop sqrtF s.markers indices s.anneal_epsilon fuel median minv s.anneal_step false

/-- The method `Frontend::reinitialize`: `self.points` becomes `k` sampled positions and
`self.sets` becomes `k` empty groups.  No other field is touched (in
particular `last_error` is NOT reset here; only `Frontend::new` sets it). -/
def Frontend.reinit (rand : ℕ → ℚ × ℚ) (s : Frontend) : Frontend :=
  { s with
    points := (List.range s.k).map rand
    sets := List.replicate s.k [] }

/-- Contract of `gen_range(MAP_LEFT..MAP_RIGHT)` / `gen_range(MAP_TOP..MAP_BOT)`
for the sampling oracle: each sample is inside the half-open ranges. -/
def genRangeOK (rand : ℕ → ℚ × ℚ) : Prop :=
  ∀ i, (MAP_LEFT ≤ (rand i).1 ∧ (rand i).1 < MAP_RIGHT) ∧
       (MAP_TOP ≤ (rand i).2 ∧ (rand i).2 < MAP_BOT)

/-- Membership in the closed map bounding rectangle. -/
def inMapRect (p : ℚ × ℚ) : Prop :=
  MAP_LEFT ≤ p.1 ∧ p.1 ≤ MAP_RIGHT ∧ MAP_TOP ≤ p.2 ∧ p.2 ≤ MAP_BOT

/-- The closest-center scan of the partition phase: fold over the enumerated
center list starting from `(f32::MAX, 0)`, updating on strict `<` only. -/
def closestScan (sqrtF : ℚ → ℚ) (m : ℚ × ℚ) :
    List (ℚ × ℚ) → ℕ → ℚ × ℕ → ℚ × ℕ
  | [], _, acc => acc
  | p :: rest, i, acc =>
    if distTo sqrtF p m < acc.1 then closestScan sqrtF m rest (i + 1) (distTo sqrtF p m, i)
    else closestScan sqrtF m rest (i + 1) acc

/-- Index of the center chosen for a marker by the partition phase. -/
def closestIndex (sqrtF : ℚ → ℚ) (points : List (ℚ × ℚ)) (m : ℚ × ℚ) : ℕ :=
  (closestScan sqrtF m points 0 (f32MAX, 0)).2

/-- The push `self.sets[j].push(v)` (a no-op when `j` is out of range; in the driver
`j < sets.length` always holds). -/
def pushInto (sets : List (List ℕ)) (j : ℕ) (v : ℕ) : List (List ℕ) :=
  sets.set j (sets.getD j [] ++ [v])

/-- The partition loop over the enumerated markers, starting at index `i`. -/
def partitionAux (sqrtF : ℚ → ℚ) (points : List (ℚ × ℚ)) :
    List ResourceMarker → ℕ → List (List ℕ) → List (List ℕ)
  | [], _, sets => sets
  | mk :: rest, i, sets =>
    partitionAux sqrtF points rest (i + 1)
      (pushInto sets (closestIndex sqrtF points (mkPos mk)) i)

/-- The partition phase of `Frontend::run_k_median`: the previous sets are
cleared (one empty group per center) and every marker index is pushed into
the group of its closest center. -/
def partition (sqrtF : ℚ → ℚ) (markers : List ResourceMarker)
    (points : List (ℚ × ℚ)) : List (List ℕ) :=
  partitionAux sqrtF points markers 0 (List.replicate points.length [])

/-- Per-set error: sum over the set of the distance from each marker to the
center of the set. -/
def setError (sqrtF : ℚ → ℚ) (markers : List ResourceMarker)
    (point : ℚ × ℚ) (set : List ℕ) : ℚ :=
  (set.map (fun i =>
    sqrtF (((markerAt markers i).x - point.1) * ((markerAt markers i).x - point.1) +
           ((markerAt markers i).y - point.2) * ((markerAt markers i).y - point.2)))).sum

/-- The quantity `total_error`: `points.zip(sets)` summed per-set errors. -/
def totalError (sqrtF : ℚ → ℚ) (markers : List ResourceMarker)
    (points : List (ℚ × ℚ)) (sets : List (List ℕ)) : ℚ :=
  ((points.zip sets).map (fun ps => setError sqrtF markers ps.1 ps.2)).sum

/-- Collect a list of `Option` results, failing if any element fails (models
the per-set `simulated_annealing` calls of one iteration, which the source
performs for every set with no emptiness check). -/
def mapAllSome (f : α → Option β) : List α → Option (List β)
  | [] => some []
  | a :: rest => (f a).bind fun b => (mapAllSome f rest).map fun bs => b :: bs

/-- One iteration of the `for _ in 0..self.k_median_max_iter` loop body of
`Frontend::run_k_median`: partition, recompute every center via
`simulated_annealing` (including centers whose set is empty), compute
`total_error`, update the best-so-far record on strict improvement, and set
`last_error = total_error`.  `none` only when some `simulated_annealing`
call ran out of fuel. -/
def kMedianIter (sqrtF : ℚ → ℚ) (saFuel : ℕ) (s : Frontend) : Option Frontend :=
  let sets := partition sqrtF s.markers s.points
  match mapAllSome (Frontend.simulated_annealing sqrtF saFuel s) sets with
  | none => none
  | some newPoints =>
    let total_error := totalError sqrtF s.markers newPoints sets
    some { s with
      sets := sets
      points := newPoints
      best_so_far := if total_error < s.best_so_far then total_error else s.best_so_far
      best_so_far_points :=
        if total_error < s.best_so_far then newPoints else s.best_so_far_points
      last_error := total_error }

/-- The convergence test of `Frontend::run_k_median`, evaluated between the
pre-iteration state `s` (whose `last_error` is the previous total error) and
the post-iteration state `t` (whose `last_error` is this total error). -/
def stopsAfter (s t : Frontend) : Prop :=
  |t.last_error - s.last_error| < s.k_median_epsilon

instance (s t : Frontend) : Decidable (stopsAfter s t) := by
  unfold stopsAfter
  infer_instance

/-- The bounded iteration loop of `Frontend::run_k_median`: at most `n`
iterations, breaking as soon as the convergence test succeeds. -/
def kMedianLoop (sqrtF : ℚ → ℚ) (saFuel : ℕ) : ℕ → Frontend → Option Frontend
  | 0, s => some s
  | n + 1, s =>
    match kMedianIter sqrtF saFuel s with
    | none => none
    | some t => if stopsAfter s t then some t else kMedianLoop sqrtF saFuel n t

/-- The method `Frontend::run_k_median`: run the iteration loop for at most
`k_median_max_iter` iterations. -/
def Frontend.run_k_median (sqrtF : ℚ → ℚ) (saFuel : ℕ) (s : Frontend) :
    Option Frontend :=
  kMedianLoop sqrtF saFuel s.k_median_max_iter s

/-- The `n`-fold composition of `kMedianIter` (no convergence test), used to
state how many iterations a `run_k_median` call actually executed. -/
def kMedianIterN (sqrtF : ℚ → ℚ) (saFuel : ℕ) : ℕ → Frontend → Option Frontend
  | 0, s => some s
  | n + 1, s => (kMedianIter sqrtF saFuel s).bind (kMedianIterN sqrtF saFuel n)

/-- A session operation: one button press of the UI, either a reset
(`Frontend::reinitialize` with its sampling oracle) or a full
`Frontend::run_k_median` call. -/
inductive SessionOp where
  | reinit (rand : ℕ → ℚ × ℚ)
  | runKM (saFuel : ℕ)

/-- Apply one session operation. -/
def applySessionOp (sqrtF : ℚ → ℚ) : SessionOp → Frontend → Option Frontend
  | SessionOp.reinit rand, s => some (Frontend.reinit rand s)
  | SessionOp.runKM saFuel, s => Frontend.run_k_median sqrtF saFuel s

/-- Apply a whole session (any interleaving of resets and runs). -/
def applySession (sqrtF : ℚ → ℚ) : List SessionOp → Frontend → Option Frontend
  | [], s => some s
  | op :: ops, s => (applySessionOp sqrtF op s).bind (applySession sqrtF ops)

/-- Total number of occurrences of marker index `m` across all sets. -/
def countIn (sets : List (List ℕ)) (m : ℕ) : ℕ :=
  (sets.map (fun l => l.count m)).sum

/-! Concrete states used as evaluation inputs (realistic UI-reachable
parameter values: `anneal_step` is fixed at 10000 in the source, the other
parameters are within the ranges offered by the control panel). -/

/-- A single-marker input list. -/
def mEx : List ResourceMarker := [⟨2, 6⟩]

/-- A state holding a single marker (for the Median Finder claims). -/
def sEx : Frontend := Frontend.new mEx

/-- A constant sampling oracle, always inside the map rectangle. -/
def rand0 : ℕ → ℚ × ℚ := fun _ => (0, 0)

/-- A state whose `last_error` is not the sentinel (reachable: every
completed iteration overwrites `last_error` with its total error). -/
def s4 : Frontend := { Frontend.new [] with last_error := 0, k := 2 }

/-- Marker list exhibiting the empty-cluster failure: one marker, k = 2. -/
def mC2 : List ResourceMarker := [⟨2, 2⟩]

/-- Sampling oracle for the empty-cluster scenario: centers `(0,0)` and
`(9,9)`; the single marker `(2,2)` is strictly closest to the first. -/
def randC2 : ℕ → ℚ × ℚ := fun i => if i = 0 then (0, 0) else (9, 9)

/-- Fresh state for the empty-cluster scenario (`k` set to 2 in the panel,
one iteration). -/
def sC2start : Frontend :=
  { Frontend.new mC2 with k := 2, k_median_max_iter := 1 }

/-- The state after `reinitialize` in the empty-cluster scenario. -/
def sC2 : Frontend := Frontend.reinit randC2 sC2start

/-- A marker-free state: one iteration of `run_k_median` on it is cheap to
evaluate and exercises all the bookkeeping. -/
def s8 : Frontend :=
  { Frontend.new [] with k_median_max_iter := 1, last_error := 0 }

/-- The state after one `run_k_median` iteration on `s8`. -/
def t8 : Frontend :=
  { s8 with sets := [], points := [], best_so_far := 0,
            best_so_far_points := [], last_error := 0 }

/-- Markers for the partition claims: three markers near two centers. -/
def mEx5 : List ResourceMarker := [⟨0, 0⟩, ⟨10, 10⟩, ⟨1, 0⟩]

/-- Centers for the partition claims. -/
def pEx5 : List (ℚ × ℚ) := [(0, 0), (10, 10)]

/-! ### Properties of the Median Finder loop -/

/-- The candidate sum `d` inside the direction scan is computed from the
unmoved `median`, so when the current minimum equals the distance sum at
`median` (the loop invariant), no direction is ever adopted. -/
theorem scanDirections_none (sqrtF : ℚ → ℚ) (markers : List ResourceMarker)
    (indices : List ℕ) (median : ℚ × ℚ) (step : ℚ) :
    ∀ dirs, scanDirections sqrtF markers indices median
      (distanceSum sqrtF markers indices median) step dirs = none := by
  intro dirs
  induction dirs with
  | nil => rfl
  | cons dir rest ih =>
    simp only [scanDirections, lt_irrefl, if_false]
    exact ih

/-- Whenever the loop returns (for any fuel, any `step`, any value of the
`improved` flag), the returned position is the unmoved starting `median`. -/
theorem saLoop_some_eq (sqrtF : ℚ → ℚ) (markers : List ResourceMarker)
    (indices : List ℕ) (eps : ℚ) :
    ∀ (fuel : ℕ) (median : ℚ × ℚ) (step : ℚ) (impr : Bool) (p : ℚ × ℚ),
      saLoop sqrtF markers indices eps fuel median
        (distanceSum sqrtF markers indices median) step impr = some p →
      p = median := by
  intro fuel
  induction fuel with
  | zero =>
    intro median step impr p h
    simp only [saLoop] at h
    by_cases he : eps < step
    · rw [if_pos he] at h
      cases h
    · rw [if_neg he] at h
      exact (Option.some_inj.mp h).symm
  | succ n ih =>
    intro median step impr p h
    simp only [saLoop] at h
    by_cases he : eps < step
    · rw [if_pos he, scanDirections_none] at h
      exact ih median _ impr p h
    · rw [if_neg he] at h
      exact (Option.some_inj.mp h).symm

/-- With enough fuel (`step ≤ eps * 2 ^ fuel`) the loop terminates through
its own condition: every pass fails to improve, `step` is halved each time,
and the unmoved `median` is returned. -/
theorem saLoop_terminates (sqrtF : ℚ → ℚ) (markers : List ResourceMarker)
    (indices : List ℕ) (eps : ℚ) :
    ∀ (fuel : ℕ) (median : ℚ × ℚ) (step : ℚ), step ≤ eps * 2 ^ fuel →
      saLoop sqrtF markers indices eps fuel median
        (distanceSum sqrtF markers indices median) step false = some median := by
  intro fuel
  induction fuel with
  | zero =>
    intro median step hstep
    rw [pow_zero, mul_one] at hstep
    simp only [saLoop, if_neg (not_lt.mpr hstep)]
  | succ n ih =>
    intro median step hstep
    by_cases he : eps < step
    · have h2 : eps * 2 ^ (n + 1) = 2 * (eps * 2 ^ n) := by ring
      rw [h2] at hstep
      simp only [saLoop, if_pos he, scanDirections_none, Bool.false_eq_true,
        if_false]
      exact ih median (step * (1 / 2)) (by linarith)
    · simp only [saLoop, if_neg he]

/-- For a positive epsilon, some fuel bound is always sufficient. -/
theorem exists_sa_fuel (eps step : ℚ) (heps : 0 < eps) :
    ∃ fuel : ℕ, step ≤ eps * 2 ^ fuel := by
  obtain ⟨n, hn⟩ := pow_unbounded_of_one_lt (step / eps) (one_lt_two (α := ℚ))
  refine ⟨n, le_of_lt ?_⟩
  have := (div_lt_iff₀ heps).mp hn
  linarith

/-- Whenever `simulated_annealing` returns, it returns the centroid. -/
theorem sa_some_eq_centroid (sqrtF : ℚ → ℚ) (fuel : ℕ) (s : Frontend)
    (indices : List ℕ) (p : ℚ × ℚ)
    (h : Frontend.simulated_annealing sqrtF fuel s indices = some p) :
    p = saCentroid s.markers indices := by
  unfold Frontend.simulated_annealing at h
  exact saLoop_some_eq sqrtF s.markers indices s.anneal_epsilon fuel
    (saCentroid s.markers indices) s.anneal_step false p h

/-- With sufficient fuel, `simulated_annealing` terminates and returns the
centroid. -/
theorem sa_terminates (sqrtF : ℚ → ℚ) (fuel : ℕ) (s : Frontend)
    (indices : List ℕ)
    (hfuel : s.anneal_step ≤ s.anneal_epsilon * 2 ^ fuel) :
    Frontend.simulated_annealing sqrtF fuel s indices
      = some (saCentroid s.markers indices) := by
  unfold Frontend.simulated_annealing
  exact saLoop_terminates sqrtF s.markers indices s.anneal_epsilon fuel
    (saCentroid s.markers indices) s.anneal_step hfuel

/-- The centroid of a single index is exactly the position of that marker. -/
theorem saCentroid_singleton (markers : List ResourceMarker) (i : ℕ) :
    saCentroid markers [i] = ((markerAt markers i).x, (markerAt markers i).y) := by
  simp [saCentroid]

/-- C1: for every nonempty list of marker indices, `simulated_annealing`
returns exactly the arithmetic mean (centroid) of the indexed marker
positions: the scan sum `d` is computed from the unmoved `median`, so the
comparison `d < min` never succeeds, the candidate never moves from its
centroid initialization, and (with positive epsilon) the loop terminates
returning the centroid. -/
theorem c1_sa_returns_centroid (sqrtF : ℚ → ℚ) (s : Frontend)
    (indices : List ℕ) (hne : indices ≠ []) :
    (∀ median step, scanDirections sqrtF s.markers indices median
        (distanceSum sqrtF s.markers indices median) step directions = none) ∧
    (∀ fuel p, Frontend.simulated_annealing sqrtF fuel s indices = some p →
        p = saCentroid s.markers indices) ∧
    (0 < s.anneal_epsilon → ∃ fuel,
        Frontend.simulated_annealing sqrtF fuel s indices
          = some (saCentroid s.markers indices)) := by
  refine ⟨fun median step => scanDirections_none sqrtF s.markers indices median step directions,
    fun fuel p h => sa_some_eq_centroid sqrtF fuel s indices p h,
    fun heps => ?_⟩
  obtain ⟨fuel, hf⟩ := exists_sa_fuel s.anneal_epsilon s.anneal_step heps
  exact ⟨fuel, sa_terminates sqrtF fuel s indices hf⟩

/-- Witness for C1 at a concrete input. -/
theorem c1_witness :
    ∃ fuel, Frontend.simulated_annealing (fun q => q) fuel sEx [0]
      = some (saCentroid sEx.markers [0]) :=
  (c1_sa_returns_centroid (fun q => q) sEx [0] (by decide)).2.2 (by decide)

/-- C9: for a singleton index list, `simulated_annealing` returns exactly
the position of that marker (the centroid of one point is the point itself, and
the candidate never moves). -/
theorem c9_singleton_median (sqrtF : ℚ → ℚ) (s : Frontend) (i : ℕ)
    (hi : i < s.markers.length) :
    (∀ fuel p, Frontend.simulated_annealing sqrtF fuel s [i] = some p →
        p = ((markerAt s.markers i).x, (markerAt s.markers i).y)) ∧
    (0 < s.anneal_epsilon → ∃ fuel,
        Frontend.simulated_annealing sqrtF fuel s [i]
          = some ((markerAt s.markers i).x, (markerAt s.markers i).y)) := by
  constructor
  · intro fuel p h
    rw [sa_some_eq_centroid sqrtF fuel s [i] p h, saCentroid_singleton]
  · intro heps
    obtain ⟨fuel, hf⟩ := exists_sa_fuel s.anneal_epsilon s.anneal_step heps
    refine ⟨fuel, ?_⟩
    rw [sa_terminates sqrtF fuel s [i] hf, saCentroid_singleton]

/-- Witness for C9 at a concrete input. -/
theorem c9_witness :
    ∃ fuel, Frontend.simulated_annealing (fun q => q) fuel sEx [0]
      = some ((markerAt sEx.markers 0).x, (markerAt sEx.markers 0).y) :=
  (c9_singleton_median (fun q => q) sEx 0 (by decide)).2 (by decide)

/-! ### Properties of one driver iteration -/

/-- The collector `mapAllSome` succeeds when every element succeeds. -/
theorem mapAllSome_eq_some (f : α → Option β) (g : α → β) :
    ∀ l : List α, (∀ x ∈ l, f x = some (g x)) → mapAllSome f l = some (l.map g) := by
  intro l
  induction l with
  | nil => intro _; rfl
  | cons a rest ih =>
    intro hall
    simp only [mapAllSome, hall a (by simp), ih (fun x hx => hall x (by simp [hx])),
      List.map_cons]
    rfl

/-- Full description of a successful driver iteration: the new sets are the
partition of the markers by the old centers, `last_error` is overwritten with
the total error of this iteration, the best-so-far record is overwritten exactly
on strict improvement, and all configuration fields are untouched. -/
theorem kMedianIter_some_elim (sqrtF : ℚ → ℚ) (saFuel : ℕ) (s t : Frontend)
    (h : kMedianIter sqrtF saFuel s = some t) :
    t.markers = s.markers ∧
    t.sets = partition sqrtF s.markers s.points ∧
    t.last_error = totalError sqrtF s.markers t.points t.sets ∧
    t.best_so_far = (if t.last_error < s.best_so_far then t.last_error else s.best_so_far) ∧
    t.best_so_far_points =
      (if t.last_error < s.best_so_far then t.points else s.best_so_far_points) ∧
    t.anneal_step = s.anneal_step ∧
    t.anneal_epsilon = s.anneal_epsilon ∧
    t.k_median_epsilon = s.k_median_epsilon ∧
    t.k_median_max_iter = s.k_median_max_iter ∧
    t.k = s.k ∧
    mapAllSome (Frontend.simulated_annealing sqrtF saFuel s)
      (partition sqrtF s.markers s.points) = some t.points := by
  simp only [kMedianIter] at h
  cases hm : mapAllSome (Frontend.simulated_annealing sqrtF saFuel s)
      (partition sqrtF s.markers s.points) with
  | none => rw [hm] at h; cases h
  | some newPoints =>
    rw [hm] at h
    simp only at h
    have ht := (Option.some_inj.mp h).symm
    subst ht
    exact ⟨rfl, rfl, rfl, rfl, rfl, rfl, rfl, rfl, rfl, rfl, rfl⟩

/-- One iteration never increases `best_so_far`. -/
theorem kMedianIter_best_le (sqrtF : ℚ → ℚ) (saFuel : ℕ) (s t : Frontend)
    (h : kMedianIter sqrtF saFuel s = some t) :
    t.best_so_far ≤ s.best_so_far := by
  rw [(kMedianIter_some_elim sqrtF saFuel s t h).2.2.2.1]
  by_cases hlt : t.last_error < s.best_so_far
  · rw [if_pos hlt]; exact le_of_lt hlt
  · rw [if_neg hlt]

/-- The iteration loop never increases `best_so_far`. -/
theorem kMedianLoop_best_mono (sqrtF : ℚ → ℚ) (saFuel : ℕ) :
    ∀ (N : ℕ) (s t : Frontend), kMedianLoop sqrtF saFuel N s = some t →
      t.best_so_far ≤ s.best_so_far := by
  intro N
  induction N with
  | zero =>
    intro s t h
    rw [← Option.some_inj.mp h]
  | succ N ih =>
    intro s t h
    cases hi : kMedianIter sqrtF saFuel s with
    | none => simp only [kMedianLoop, hi] at h; cases h
    | some u =>
      simp only [kMedianLoop, hi] at h
      by_cases hs : stopsAfter s u
      · rw [if_pos hs] at h
        rw [← Option.some_inj.mp h]
        exact kMedianIter_best_le sqrtF saFuel s u hi
      · rw [if_neg hs] at h
        exact le_trans (ih u t h) (kMedianIter_best_le sqrtF saFuel s u hi)

/-- A whole session (any interleaving of resets and runs) never increases
`best_so_far` (`reinitialize` does not touch it, runs only lower it). -/
theorem applySession_best_mono (sqrtF : ℚ → ℚ) :
    ∀ (ops : List SessionOp) (s t : Frontend),
      applySession sqrtF ops s = some t → t.best_so_far ≤ s.best_so_far := by
  intro ops
  induction ops with
  | nil =>
    intro s t h
    rw [← Option.some_inj.mp h]
  | cons op rest ih =>
    intro s t h
    simp only [applySession] at h
    cases ho : applySessionOp sqrtF op s with
    | none => rw [ho] at h; cases h
    | some u =>
      rw [ho] at h
      have h2 : applySession sqrtF rest u = some t := h
      refine le_trans (ih u t h2) ?_
      cases op with
      | reinit rand =>
        have hu : u = Frontend.reinit rand s := (Option.some_inj.mp ho).symm
        rw [hu]
        exact le_refl s.best_so_far
      | runKM saFuel =>
        exact kMedianLoop_best_mono sqrtF saFuel s.k_median_max_iter s u ho

/-- C7: across any sequence of `run_k_median` calls and resets in a session,
`best_so_far` is non-increasing, and within an iteration `best_so_far` and
`best_so_far_points` are overwritten exactly when the current
`total_error` (recorded in `last_error`) is strictly below the current
`best_so_far`. -/
theorem c7_best_so_far (sqrtF : ℚ → ℚ) :
    (∀ (ops : List SessionOp) (s t : Frontend),
      applySession sqrtF ops s = some t → t.best_so_far ≤ s.best_so_far) ∧
    (∀ (saFuel : ℕ) (s t : Frontend), kMedianIter sqrtF saFuel s = some t →
      t.best_so_far = (if t.last_error < s.best_so_far then t.last_error else s.best_so_far) ∧
      t.best_so_far_points =
        (if t.last_error < s.best_so_far then t.points else s.best_so_far_points)) := by
  refine ⟨applySession_best_mono sqrtF, fun saFuel s t h => ?_⟩
  have helim := kMedianIter_some_elim sqrtF saFuel s t h
  exact ⟨helim.2.2.2.1, helim.2.2.2.2.1⟩

/-- Witness for C7 at a concrete session. -/
theorem c7_witness :
    t8.best_so_far ≤ s8.best_so_far ∧
    t8.best_so_far = (if t8.last_error < s8.best_so_far then t8.last_error else s8.best_so_far) :=
  ⟨(c7_best_so_far (fun q => q)).1 [SessionOp.runKM 0] s8 t8 (by
      norm_num [applySession, applySessionOp, Frontend.run_k_median, kMedianLoop,
        kMedianIter, partition, partitionAux, mapAllSome, totalError, stopsAfter,
        s8, t8, Frontend.new, f32MAX]),
   ((c7_best_so_far (fun q => q)).2 0 s8 t8 (by decide)).1⟩

/-- Unfolding `kMedianIterN` through a successful first iteration. -/
theorem kMedianIterN_succ_of_some (sqrtF : ℚ → ℚ) (saFuel : ℕ) (s u : Frontend)
    (h : kMedianIter sqrtF saFuel s = some u) (n : ℕ) :
    kMedianIterN sqrtF saFuel (n + 1) s = kMedianIterN sqrtF saFuel n u := by
  simp only [kMedianIterN, h, Option.bind]

/-- Characterization of a completed `kMedianLoop` run: some number `n ≤ N`
of iterations were executed, the convergence test failed between all earlier
consecutive iterations, and if the loop stopped before the bound it is
because the test succeeded on the last iteration executed. -/
theorem kMedianLoop_spec (sqrtF : ℚ → ℚ) (saFuel : ℕ) :
    ∀ (N : ℕ) (s t : Frontend), kMedianLoop sqrtF saFuel N s = some t →
      ∃ n, n ≤ N ∧ kMedianIterN sqrtF saFuel n s = some t ∧
        (∀ j u u2, j + 1 < n → kMedianIterN sqrtF saFuel j s = some u →
          kMedianIter sqrtF saFuel u = some u2 → ¬ stopsAfter u u2) ∧
        (n < N → 0 < n ∧ ∃ u, kMedianIterN sqrtF saFuel (n - 1) s = some u ∧
          kMedianIter sqrtF saFuel u = some t ∧ stopsAfter u t) := by
  intro N
  induction N with
  | zero =>
    intro s t h
    have hst : s = t := Option.some_inj.mp h
    subst hst
    refine ⟨0, le_refl 0, rfl, ?_, ?_⟩
    · intro j u u2 hj
      exact absurd hj (by omega)
    · intro hn
      exact absurd hn (by omega)
  | succ N ih =>
    intro s t h
    cases hi : kMedianIter sqrtF saFuel s with
    | none => simp only [kMedianLoop, hi] at h; cases h
    | some u =>
      simp only [kMedianLoop, hi] at h
      by_cases hs : stopsAfter s u
      · rw [if_pos hs] at h
        have hut : u = t := Option.some_inj.mp h
        subst hut
        refine ⟨1, by omega, ?_, ?_, ?_⟩
        · rw [kMedianIterN_succ_of_some sqrtF saFuel s u hi 0]
          rfl
        · intro j u1 u2 hj
          exact absurd hj (by omega)
        · intro _
          exact ⟨by omega, s, rfl, hi, hs⟩
      · rw [if_neg hs] at h
        obtain ⟨n2, hn2N, hiter, hnostop, hstop⟩ := ih u t h
        refine ⟨n2 + 1, by omega, ?_, ?_, ?_⟩
        · rw [kMedianIterN_succ_of_some sqrtF saFuel s u hi n2]
          exact hiter
        · intro j u1 u2 hj h1 h2
          cases j with
          | zero =>
            have hsu1 : s = u1 := Option.some_inj.mp h1
            subst hsu1
            rw [hi] at h2
            have huu2 : u = u2 := Option.some_inj.mp h2
            subst huu2
            exact hs
          | succ j2 =>
            rw [kMedianIterN_succ_of_some sqrtF saFuel s u hi j2] at h1
            exact hnostop j2 u1 u2 (by omega) h1 h2
        · intro hlt
          obtain ⟨hpos, u1, hA, hB, hC⟩ := hstop (by omega)
          refine ⟨by omega, u1, ?_, hB, hC⟩
          have heq : n2 + 1 - 1 = (n2 - 1) + 1 := by omega
          rw [heq, kMedianIterN_succ_of_some sqrtF saFuel s u hi (n2 - 1)]
          exact hA

/-- C8: a `run_k_median` call executes `n ≤ k_median_max_iter` iterations;
it stops before the cap exactly when the convergence test
`|total_error - last_error| < k_median_epsilon` succeeds on the final
iteration executed (and on no earlier one); and every iteration records its
own total error in `last_error`. -/
theorem c8_loop_behavior (sqrtF : ℚ → ℚ) (saFuel : ℕ) (s t : Frontend)
    (h : Frontend.run_k_median sqrtF saFuel s = some t) :
    (∃ n, n ≤ s.k_median_max_iter ∧ kMedianIterN sqrtF saFuel n s = some t ∧
      (∀ j u u2, j + 1 < n → kMedianIterN sqrtF saFuel j s = some u →
        kMedianIter sqrtF saFuel u = some u2 → ¬ stopsAfter u u2) ∧
      (n < s.k_median_max_iter → 0 < n ∧
        ∃ u, kMedianIterN sqrtF saFuel (n - 1) s = some u ∧
          kMedianIter sqrtF saFuel u = some t ∧ stopsAfter u t)) ∧
    (∀ u u2, kMedianIter sqrtF saFuel u = some u2 →
      u2.last_error = totalError sqrtF u.markers u2.points u2.sets) :=
  ⟨kMedianLoop_spec sqrtF saFuel s.k_median_max_iter s t h,
   fun u u2 hu => (kMedianIter_some_elim sqrtF saFuel u u2 hu).2.2.1⟩

/-- Witness for C8 at a concrete run. -/
theorem c8_witness :
    t8.last_error = totalError (fun q => q) s8.markers t8.points t8.sets :=
  (c8_loop_behavior (fun q => q) 0 s8 t8 (by
      norm_num [Frontend.run_k_median, kMedianLoop, kMedianIter, partition,
        partitionAux, mapAllSome, totalError, stopsAfter, s8, t8, Frontend.new,
        f32MAX])).2 s8 t8 (by decide)

/-- With sufficient fuel every `simulated_annealing` call of an iteration
succeeds, so the iteration itself succeeds. -/
theorem kMedianIter_some_of_fuel (sqrtF : ℚ → ℚ) (saFuel : ℕ) (s : Frontend)
    (hfuel : s.anneal_step ≤ s.anneal_epsilon * 2 ^ saFuel) :
    ∃ t, kMedianIter sqrtF saFuel s = some t := by
  have hmap := mapAllSome_eq_some (Frontend.simulated_annealing sqrtF saFuel s)
    (saCentroid s.markers) (partition sqrtF s.markers s.points)
    (fun set _ => sa_terminates sqrtF saFuel s set hfuel)
  simp only [kMedianIter, hmap]
  exact ⟨_, rfl⟩

/-- With sufficient fuel the whole iteration loop succeeds. -/
theorem kMedianLoop_some_of_fuel (sqrtF : ℚ → ℚ) (saFuel : ℕ) :
    ∀ (N : ℕ) (s : Frontend), s.anneal_step ≤ s.anneal_epsilon * 2 ^ saFuel →
      ∃ t, kMedianLoop sqrtF saFuel N s = some t := by
  intro N
  induction N with
  | zero =>
    intro s _
    exact ⟨s, rfl⟩
  | succ N ih =>
    intro s hfuel
    obtain ⟨u, hu⟩ := kMedianIter_some_of_fuel sqrtF saFuel s hfuel
    have helim := kMedianIter_some_elim sqrtF saFuel s u hu
    have hufuel : u.anneal_step ≤ u.anneal_epsilon * 2 ^ saFuel := by
      rw [helim.2.2.2.2.2.1, helim.2.2.2.2.2.2.1]
      exact hfuel
    by_cases hs : stopsAfter s u
    · exact ⟨u, by simp only [kMedianLoop, hu, if_pos hs]⟩
    · obtain ⟨t, ht⟩ := ih u hufuel
      exact ⟨t, by simp only [kMedianLoop, hu, if_neg hs]; exact ht⟩

/-- C10: for positive `anneal_epsilon` the Median Finder terminates — the
step is halved on every pass (no pass can improve, so the `improved` flag is
never set) until it reaches `anneal_epsilon` — and consequently a full
`run_k_median` call completes with some sufficient fuel. -/
theorem c10_termination (sqrtF : ℚ → ℚ) :
    (∀ (s : Frontend) (indices : List ℕ), 0 < s.anneal_epsilon →
      ∃ fuel, Frontend.simulated_annealing sqrtF fuel s indices
        = some (saCentroid s.markers indices)) ∧
    (∀ s : Frontend, 0 < s.anneal_epsilon →
      ∃ saFuel t, Frontend.run_k_median sqrtF saFuel s = some t) := by
  constructor
  · intro s indices heps
    obtain ⟨fuel, hf⟩ := exists_sa_fuel s.anneal_epsilon s.anneal_step heps
    exact ⟨fuel, sa_terminates sqrtF fuel s indices hf⟩
  · intro s heps
    obtain ⟨saFuel, hf⟩ := exists_sa_fuel s.anneal_epsilon s.anneal_step heps
    obtain ⟨t, ht⟩ := kMedianLoop_some_of_fuel sqrtF saFuel s.k_median_max_iter s hf
    exact ⟨saFuel, t, ht⟩

/-- Witness for C10 at a concrete state. -/
theorem c10_witness :
    ∃ saFuel t, Frontend.run_k_median (fun q => q) saFuel sEx = some t :=
  (c10_termination (fun q => q)).2 sEx (by decide)

/-! ### Properties of the partition phase -/

/-- Characterization of the closest-center fold: either no center beats the
incoming accumulator (which is then returned unchanged), or the result is
the first index attaining the minimum distance — strictly better than the
accumulator, no worse than every center, and strictly better than every
center before it. -/
theorem closestScan_spec (sqrtF : ℚ → ℚ) (m : ℚ × ℚ) :
    ∀ (ps : List (ℚ × ℚ)) (i : ℕ) (cd : ℚ) (ci : ℕ),
      (closestScan sqrtF m ps i (cd, ci) = (cd, ci) ∧
        ∀ t2, t2 < ps.length → ¬ distTo sqrtF (ps.getD t2 (0, 0)) m < cd) ∨
      (∃ j, j < ps.length ∧
        (closestScan sqrtF m ps i (cd, ci)).2 = i + j ∧
        (closestScan sqrtF m ps i (cd, ci)).1 = distTo sqrtF (ps.getD j (0, 0)) m ∧
        (closestScan sqrtF m ps i (cd, ci)).1 < cd ∧
        (∀ t2, t2 < ps.length →
          (closestScan sqrtF m ps i (cd, ci)).1 ≤ distTo sqrtF (ps.getD t2 (0, 0)) m) ∧
        (∀ t2, t2 < j →
          (closestScan sqrtF m ps i (cd, ci)).1 < distTo sqrtF (ps.getD t2 (0, 0)) m)) := by
  intro ps
  induction ps with
  | nil =>
    intro i cd ci
    left
    refine ⟨rfl, fun t2 ht2 => absurd ht2 (by simp)⟩
  | cons p rest ih =>
    intro i cd ci
    by_cases hd : distTo sqrtF p m < cd
    · have hstep : closestScan sqrtF m (p :: rest) i (cd, ci)
          = closestScan sqrtF m rest (i + 1) (distTo sqrtF p m, i) := by
        simp only [closestScan, if_pos hd]
      rcases ih (i + 1) (distTo sqrtF p m) i with
        ⟨heq, hall⟩ | ⟨j2, hj2, hidx, hval, hlt, hle, hpre⟩
      · right
        refine ⟨0, by simp, ?_, ?_, ?_, ?_, ?_⟩
        · rw [hstep, heq]
          simp
        · rw [hstep, heq]
          simp
        · rw [hstep, heq]
          exact hd
        · intro t2 ht2
          rw [hstep, heq]
          cases t2 with
          | zero => simp
          | succ t3 =>
            have ht3 : t3 < rest.length := by
              simp only [List.length_cons] at ht2
              omega
            have hnot := hall t3 ht3
            simp only [List.getD_cons_succ]
            exact not_lt.mp hnot
        · intro t2 ht2
          exact absurd ht2 (by omega)
      · right
        refine ⟨j2 + 1, by simp only [List.length_cons]; omega, ?_, ?_, ?_, ?_, ?_⟩
        · rw [hstep, hidx]
          omega
        · rw [hstep, hval]
          simp only [List.getD_cons_succ]
        · rw [hstep]
          exact lt_trans hlt hd
        · intro t2 ht2
          rw [hstep]
          cases t2 with
          | zero =>
            simp only [List.getD_cons_zero]
            exact le_of_lt hlt
          | succ t3 =>
            have ht3 : t3 < rest.length := by
              simp only [List.length_cons] at ht2
              omega
            simp only [List.getD_cons_succ]
            exact hle t3 ht3
        · intro t2 ht2
          rw [hstep]
          cases t2 with
          | zero =>
            simp only [List.getD_cons_zero]
            exact hlt
          | succ t3 =>
            simp only [List.getD_cons_succ]
            exact hpre t3 (by omega)
    · have hstep : closestScan sqrtF m (p :: rest) i (cd, ci)
          = closestScan sqrtF m rest (i + 1) (cd, ci) := by
        simp only [closestScan, if_neg hd]
      rcases ih (i + 1) cd ci with
        ⟨heq, hall⟩ | ⟨j2, hj2, hidx, hval, hlt, hle, hpre⟩
      · left
        refine ⟨by rw [hstep, heq], ?_⟩
        intro t2 ht2
        cases t2 with
        | zero =>
          simp only [List.getD_cons_zero]
          exact hd
        | succ t3 =>
          have ht3 : t3 < rest.length := by
            simp only [List.length_cons] at ht2
            omega
          simp only [List.getD_cons_succ]
          exact hall t3 ht3
      · right
        refine ⟨j2 + 1, by simp only [List.length_cons]; omega, ?_, ?_, ?_, ?_, ?_⟩
        · rw [hstep, hidx]
          omega
        · rw [hstep, hval]
          simp only [List.getD_cons_succ]
        · rw [hstep]
          exact hlt
        · intro t2 ht2
          rw [hstep]
          cases t2 with
          | zero =>
            simp only [List.getD_cons_zero]
            exact le_of_lt (lt_of_lt_of_le hlt (not_lt.mp hd))
          | succ t3 =>
            have ht3 : t3 < rest.length := by
              simp only [List.length_cons] at ht2
              omega
            simp only [List.getD_cons_succ]
            exact hle t3 ht3
        · intro t2 ht2
          rw [hstep]
          cases t2 with
          | zero =>
            simp only [List.getD_cons_zero]
            exact lt_of_lt_of_le hlt (not_lt.mp hd)
          | succ t3 =>
            simp only [List.getD_cons_succ]
            exact hpre t3 (by omega)

/-- For a nonempty center list the chosen index is always in range. -/
theorem closestIndex_lt_length (sqrtF : ℚ → ℚ) (points : List (ℚ × ℚ))
    (m : ℚ × ℚ) (hne : points ≠ []) :
    closestIndex sqrtF points m < points.length := by
  have hlen : 0 < points.length := List.length_pos.mpr hne
  unfold closestIndex
  rcases closestScan_spec sqrtF m points 0 f32MAX 0 with ⟨heq, _⟩ | ⟨j, hj, hidx, _⟩
  · rw [heq]
    exact hlen
  · rw [hidx]
    omega

/-- Setting one index leaves `getD` at any other index unchanged. -/
theorem getD_set_ne : ∀ (l : List (List ℕ)) (j t : ℕ) (x : List ℕ), j ≠ t →
    (l.set j x).getD t [] = l.getD t [] := by
  intro l
  induction l with
  | nil => intro j t x _; simp
  | cons a rest ih =>
    intro j t x h
    cases j with
    | zero =>
      cases t with
      | zero => exact absurd rfl h
      | succ t2 => simp [List.set]
    | succ j2 =>
      cases t with
      | zero => simp [List.set]
      | succ t2 =>
        simp only [List.set, List.getD_cons_succ]
        exact ih j2 t2 x (by omega)

/-- Reading back the group a marker index was just pushed into. -/
theorem getD_pushInto_self : ∀ (sets : List (List ℕ)) (j v : ℕ), j < sets.length →
    (pushInto sets j v).getD j [] = sets.getD j [] ++ [v] := by
  intro sets
  induction sets with
  | nil => intro j v h; exact absurd h (by simp)
  | cons a rest ih =>
    intro j v h
    cases j with
    | zero => simp [pushInto, List.set]
    | succ j2 =>
      have hj2 : j2 < rest.length := by
        simp only [List.length_cons] at h
        omega
      simp only [pushInto, List.getD_cons_succ, List.set, List.getD_cons_succ]
      exact ih j2 v hj2

/-- Pushing preserves membership in every group. -/
theorem mem_getD_pushInto (sets : List (List ℕ)) (j v : ℕ) (t v2 : ℕ)
    (hmem : v2 ∈ sets.getD t []) : v2 ∈ (pushInto sets j v).getD t [] := by
  by_cases hjt : j = t
  · subst hjt
    by_cases hj : j < sets.length
    · rw [getD_pushInto_self sets j v hj]
      exact List.mem_append_left [v] hmem
    · unfold pushInto
      rw [List.set_eq_of_length_le (by omega)]
      exact hmem
  · unfold pushInto
    rw [getD_set_ne sets j t _ hjt]
    exact hmem

/-- Pushing in range adds exactly one occurrence of the pushed value. -/
theorem countIn_pushInto : ∀ (sets : List (List ℕ)) (j v m : ℕ), j < sets.length →
    countIn (pushInto sets j v) m = countIn sets m + (if v = m then 1 else 0) := by
  intro sets
  induction sets with
  | nil => intro j v m h; exact absurd h (by simp)
  | cons a rest ih =>
    intro j v m h
    cases j with
    | zero =>
      have hcnt : List.count m [v] = if v = m then 1 else 0 := by
        by_cases hvm : v = m <;> simp [List.count_cons, List.count_nil, hvm]
      simp only [pushInto, List.getD_cons_zero, List.set, countIn, List.map_cons,
        List.sum_cons, List.count_append, hcnt]
      split_ifs <;> omega
    | succ j2 =>
      have hj2 : j2 < rest.length := by
        simp only [List.length_cons] at h
        omega
      have hstep : pushInto (a :: rest) (j2 + 1) v = a :: pushInto rest j2 v := by
        simp [pushInto, List.set]
      rw [hstep]
      simp only [countIn, List.map_cons, List.sum_cons] at *
      rw [ih j2 v m hj2]
      omega

/-- The partition fold preserves the number of groups. -/
theorem partitionAux_length (sqrtF : ℚ → ℚ) (points : List (ℚ × ℚ)) :
    ∀ (mks : List ResourceMarker) (i : ℕ) (sets : List (List ℕ)),
      (partitionAux sqrtF points mks i sets).length = sets.length := by
  intro mks
  induction mks with
  | nil => intro i sets; rfl
  | cons mk rest ih =>
    intro i sets
    simp only [partitionAux]
    rw [ih]
    simp [pushInto]

/-- The partition fold adds each processed marker index exactly once. -/
theorem partitionAux_countIn (sqrtF : ℚ → ℚ) (points : List (ℚ × ℚ))
    (hne : points ≠ []) :
    ∀ (mks : List ResourceMarker) (i : ℕ) (sets : List (List ℕ)) (m : ℕ),
      sets.length = points.length →
      countIn (partitionAux sqrtF points mks i sets) m
        = countIn sets m + (if i ≤ m ∧ m < i + mks.length then 1 else 0) := by
  intro mks
  induction mks with
  | nil =>
    intro i sets m _
    simp only [partitionAux, List.length_nil]
    rw [if_neg (by omega)]
    omega
  | cons mk rest ih =>
    intro i sets m hlen
    have hidx : closestIndex sqrtF points (mkPos mk) < sets.length := by
      rw [hlen]
      exact closestIndex_lt_length sqrtF points (mkPos mk) hne
    simp only [partitionAux]
    rw [ih (i + 1) _ m (by simp [pushInto, hlen])]
    rw [countIn_pushInto sets _ i m hidx]
    simp only [List.length_cons]
    split_ifs <;> omega

/-- The partition fold preserves membership in every group. -/
theorem partitionAux_mem_mono (sqrtF : ℚ → ℚ) (points : List (ℚ × ℚ)) :
    ∀ (mks : List ResourceMarker) (i : ℕ) (sets : List (List ℕ)) (t v2 : ℕ),
      v2 ∈ sets.getD t [] →
      v2 ∈ (partitionAux sqrtF points mks i sets).getD t [] := by
  intro mks
  induction mks with
  | nil => intro i sets t v2 h; exact h
  | cons mk rest ih =>
    intro i sets t v2 h
    simp only [partitionAux]
    exact ih (i + 1) _ t v2 (mem_getD_pushInto sets _ i t v2 h)

/-- Each processed marker index lands in the group of its closest center. -/
theorem partitionAux_mem_self (sqrtF : ℚ → ℚ) (points : List (ℚ × ℚ))
    (hne : points ≠ []) :
    ∀ (mks : List ResourceMarker) (i : ℕ) (sets : List (List ℕ)),
      sets.length = points.length →
      ∀ tI, tI < mks.length →
        (i + tI) ∈ (partitionAux sqrtF points mks i sets).getD
          (closestIndex sqrtF points (mkPos (mks.getD tI ⟨0, 0⟩))) [] := by
  intro mks
  induction mks with
  | nil =>
    intro i sets _ tI htI
    exact absurd htI (by simp)
  | cons mk rest ih =>
    intro i sets hlen tI htI
    have hidx : closestIndex sqrtF points (mkPos mk) < sets.length := by
      rw [hlen]
      exact closestIndex_lt_length sqrtF points (mkPos mk) hne
    cases tI with
    | zero =>
      simp only [partitionAux, List.getD_cons_zero, Nat.add_zero]
      refine partitionAux_mem_mono sqrtF points rest (i + 1) _ _ i ?_
      rw [getD_pushInto_self sets _ i hidx]
      exact List.mem_append_right _ (by simp)
    | succ tI2 =>
      have htI2 : tI2 < rest.length := by
        simp only [List.length_cons] at htI
        omega
      have hadd : i + (tI2 + 1) = (i + 1) + tI2 := by omega
      simp only [partitionAux, List.getD_cons_succ, hadd]
      exact ih (i + 1) _ (by simp [pushInto, hlen]) tI2 htI2

/-- C5: for every marker list and nonempty center list, after partitioning
every marker index appears in exactly one group (total occurrence count one:
not unassigned, not double-assigned), and there is one group per center. -/
theorem c5_partition_exactly_once (sqrtF : ℚ → ℚ) (markers : List ResourceMarker)
    (points : List (ℚ × ℚ)) (hne : points ≠ []) (m : ℕ) (hm : m < markers.length) :
    countIn (partition sqrtF markers points) m = 1 ∧
    (partition sqrtF markers points).length = points.length := by
  constructor
  · unfold partition
    rw [partitionAux_countIn sqrtF points hne markers 0 _ m (by simp)]
    have hrep : countIn (List.replicate points.length ([] : List ℕ)) m = 0 := by
      simp [countIn, List.map_replicate, List.sum_replicate]
    rw [hrep, if_pos (by omega)]
  · unfold partition
    rw [partitionAux_length]
    simp

/-- Witness for C5 at a concrete input. -/
theorem c5_witness :
    countIn (partition (fun q => q) mEx5 pEx5) 0 = 1 ∧
    (partition (fun q => q) mEx5 pEx5).length = pEx5.length :=
  c5_partition_exactly_once (fun q => q) mEx5 pEx5 (by decide) 0 (by decide)

/-- C6: every marker is assigned to the group of a center at minimal
distance among all centers, and among the minimal-distance centers the one
with the lowest index wins (the scan updates on strict improvement only). -/
theorem c6_partition_nearest (sqrtF : ℚ → ℚ) (markers : List ResourceMarker)
    (points : List (ℚ × ℚ)) (t : ℕ) (ht : t < markers.length) (hne : points ≠ [])
    (hfin : ∀ i2, i2 < points.length →
      distTo sqrtF (points.getD i2 (0, 0)) (mkPos (markerAt markers t)) < f32MAX) :
    t ∈ (partition sqrtF markers points).getD
        (closestIndex sqrtF points (mkPos (markerAt markers t))) [] ∧
    closestIndex sqrtF points (mkPos (markerAt markers t)) < points.length ∧
    (∀ i2, i2 < points.length →
      distTo sqrtF
          (points.getD (closestIndex sqrtF points (mkPos (markerAt markers t))) (0, 0))
          (mkPos (markerAt markers t))
        ≤ distTo sqrtF (points.getD i2 (0, 0)) (mkPos (markerAt markers t))) ∧
    (∀ i2, i2 < closestIndex sqrtF points (mkPos (markerAt markers t)) →
      distTo sqrtF
          (points.getD (closestIndex sqrtF points (mkPos (markerAt markers t))) (0, 0))
          (mkPos (markerAt markers t))
        < distTo sqrtF (points.getD i2 (0, 0)) (mkPos (markerAt markers t))) := by
  have hlen0 : 0 < points.length := List.length_pos.mpr hne
  have hmem : t ∈ (partition sqrtF markers points).getD
      (closestIndex sqrtF points (mkPos (markerAt markers t))) [] := by
    unfold partition
    have := partitionAux_mem_self sqrtF points hne markers 0
      (List.replicate points.length []) (by simp) t ht
    simpa [markerAt] using this
  refine ⟨hmem, ?_⟩
  rcases closestScan_spec sqrtF (mkPos (markerAt markers t)) points 0 f32MAX 0 with
    ⟨heq, hall⟩ | ⟨j, hj, hidx, hval, hlt, hle, hpre⟩
  · exact absurd (hfin 0 hlen0) (hall 0 hlen0)
  · have hci : closestIndex sqrtF points (mkPos (markerAt markers t)) = j := by
      unfold closestIndex
      omega
    rw [hci]
    refine ⟨hj, ?_, ?_⟩
    · intro i2 hi2
      rw [← hval]
      exact hle i2 hi2
    · intro i2 hi2
      rw [← hval]
      exact hpre i2 hi2

/-- Witness for C6 at a concrete input. -/
theorem c6_witness :
    0 ∈ (partition (fun q => q) mEx5 pEx5).getD
        (closestIndex (fun q => q) pEx5 (mkPos (markerAt mEx5 0))) [] :=
  (c6_partition_nearest (fun q => q) mEx5 pEx5 0 (by decide) (by decide) (by
    intro i2 hi2
    simp only [pEx5, List.length_cons, List.length_nil] at hi2
    interval_cases i2 <;>
      norm_num [pEx5, distTo, mkPos, markerAt, mEx5, f32MAX])).1

/-! ### Reinitialization and the empty-cluster failure -/

/-- C4 (amended): `reinitialize` assigns `k` sampled positions inside the
map rectangle and `k` cleared groups, but does NOT reset `last_error` (or
any other field): the sentinel `f32::MAX` is installed only by
`Frontend::new`. -/
theorem c4_reinit_state (rand : ℕ → ℚ × ℚ) (s : Frontend) (hr : genRangeOK rand) :
    (Frontend.reinit rand s).points.length = s.k ∧
    (∀ p ∈ (Frontend.reinit rand s).points, inMapRect p) ∧
    (Frontend.reinit rand s).sets = List.replicate s.k [] ∧
    (Frontend.reinit rand s).last_error = s.last_error ∧
    (Frontend.reinit rand s).best_so_far = s.best_so_far := by
  refine ⟨by simp [Frontend.reinit], ?_, rfl, rfl, rfl⟩
  intro p hp
  simp only [Frontend.reinit, List.mem_map, List.mem_range] at hp
  obtain ⟨i, _, hpi⟩ := hp
  subst hpi
  obtain ⟨⟨h1, h2⟩, h3, h4⟩ := hr i
  exact ⟨h1, le_of_lt h2, h3, le_of_lt h4⟩

/-- C4 counterexample: from a pre-state whose `last_error` is `0` (any
completed run leaves its total error there), `reinitialize` does not restore
the sentinel `f32::MAX`, contradicting the claim that `last_error` equals
the sentinel after any `reinitialize` call regardless of the pre-state. -/
theorem c4_counterexample :
    ¬ ((Frontend.reinit rand0 s4).last_error = f32MAX) := by
  decide

/-- Witness for the amended C4 at a concrete input. -/
theorem c4_witness :
    (Frontend.reinit rand0 s4).last_error = s4.last_error ∧
    (Frontend.reinit rand0 s4).points.length = s4.k :=
  ⟨(c4_reinit_state rand0 s4 (by
      intro i
      norm_num [rand0, MAP_LEFT, MAP_RIGHT, MAP_TOP, MAP_BOT])).2.2.2.1,
   (c4_reinit_state rand0 s4 (by
      intro i
      norm_num [rand0, MAP_LEFT, MAP_RIGHT, MAP_TOP, MAP_BOT])).1⟩

/-- C3: the driver does NOT guard empty clusters.  In the reachable state
`sC2` (one marker, two centers, obtained by `reinitialize`), partitioning
leaves the second cluster empty, and the iteration nevertheless proceeds:
`kMedianIter` maps `simulated_annealing` over every set of the partition —
including the empty one — with no emptiness check, so the empty index set is
passed to the Median Finder. -/
theorem c3_empty_cluster_unguarded :
    partition (fun q => q) sC2.markers sC2.points = [[0], []] ∧
    (∃ t, kMedianIter (fun q => q) 14 sC2 = some t ∧ t.sets = [[0], []]) := by
  have hpart : partition (fun q => q) sC2.markers sC2.points = [[0], []] := by
    norm_num [partition, partitionAux, closestIndex, closestScan, distTo, pushInto,
      sC2, sC2start, Frontend.reinit, Frontend.new, mC2, randC2, mkPos, f32MAX,
      List.range_succ, List.replicate, List.set, List.getD]
  have hfuel : sC2.anneal_step ≤ sC2.anneal_epsilon * 2 ^ (14 : ℕ) := by
    norm_num [sC2, sC2start, Frontend.reinit, Frontend.new]
  obtain ⟨t, ht⟩ := kMedianIter_some_of_fuel (fun q => q) 14 sC2 hfuel
  refine ⟨hpart, t, ht, ?_⟩
  rw [(kMedianIter_some_elim (fun q => q) 14 sC2 t ht).2.1, hpart]

/-- C2: centers do NOT stay finite.  In the reachable state `sC2` the second
cluster is empty after partitioning, and the recomputed second center is the
centroid of an empty index list: its coordinates are the division `0 / 0`
(`indices.len() = 0` is the divisor).  In `f32` arithmetic `0.0 / 0.0` is
`NaN`, so `points[1]` becomes a non-finite center; the exact-arithmetic
model shows the same division by zero through its junk value `0 / 0 = 0`. -/
theorem c2_nan_center_on_empty_cluster :
    (partition (fun q => q) sC2.markers sC2.points).getD 1 [] = [] ∧
    (∃ t, kMedianIter (fun q => q) 14 sC2 = some t ∧
      t.points = [(2, 2), ((0 : ℚ) / 0, (0 : ℚ) / 0)]) := by
  have hpart : partition (fun q => q) sC2.markers sC2.points = [[0], []] := by
    norm_num [partition, partitionAux, closestIndex, closestScan, distTo, pushInto,
      sC2, sC2start, Frontend.reinit, Frontend.new, mC2, randC2, mkPos, f32MAX,
      List.range_succ, List.replicate, List.set, List.getD]
  have hfuel : sC2.anneal_step ≤ sC2.anneal_epsilon * 2 ^ (14 : ℕ) := by
    norm_num [sC2, sC2start, Frontend.reinit, Frontend.new]
  have hmap := mapAllSome_eq_some (Frontend.simulated_annealing (fun q => q) 14 sC2)
    (saCentroid sC2.markers) (partition (fun q => q) sC2.markers sC2.points)
    (fun set _ => sa_terminates (fun q => q) 14 sC2 set hfuel)
  obtain ⟨t, ht⟩ := kMedianIter_some_of_fuel (fun q => q) 14 sC2 hfuel
  have hpts := (kMedianIter_some_elim (fun q => q) 14 sC2 t ht).2.2.2.2.2.2.2.2.2.2
  rw [hmap] at hpts
  have hpoints : t.points
      = (partition (fun q => q) sC2.markers sC2.points).map (saCentroid sC2.markers) :=
    (Option.some_inj.mp hpts).symm
  refine ⟨by rw [hpart]; rfl, t, ht, ?_⟩
  rw [hpoints, hpart]
  norm_num [saCentroid, mC2, markerAt, sC2, sC2start, Frontend.reinit, Frontend.new]
